import Mathlib

/-!
Shallow embedding of the order-matching engine (src/order.h, src/order.cpp,
src/orderbook.h, src/orderbook.cpp).

Modelling conventions:
* C++ `int` values (amounts, times, fill quantities) are modelled as `ℤ`;
  no arithmetic in the matching loops can overflow for the book sizes the
  claims consider, so wrap-around is not modelled.
* `float` prices are only ever compared, never combined arithmetically, so a
  price is modelled as the exact rational value `ℚ` of the stored float;
  float comparison agrees with rational comparison of the represented values.
* The pro-rata proportion arithmetic (orderbook.cpp lines 238-239) really is
  performed in IEEE-754 binary32; it is modelled exactly below (`fpRound`
  etc.) as round-to-nearest-even with a 24-bit significand.  Overflow and
  subnormals are outside the range of any value arising from the books
  considered here (all magnitudes lie in [2^-64, 2^64)).
* `std::priority_queue` is modelled as a `List Order` together with
  `popBest`, which removes a maximal element w.r.t. the C++ comparator
  (`top()`/`pop()`).  Among tied (equivalent) elements the C++ heap's choice
  is unspecified; the model deterministically takes the earliest listed one.
-/

namespace OrderMatching

/-- `2 ^ e` as a rational, for an integer exponent. -/
def pow2 (e : ℤ) : ℚ :=
  if 0 ≤ e then ((2 ^ e.toNat : ℕ) : ℚ) else 1 / ((2 ^ (-e).toNat : ℕ) : ℚ)

/-- Round a rational to an integer, ties to even (IEEE round-to-nearest-even). -/
def rhe (q : ℚ) : ℤ :=
  let f := ⌊q⌋
  let r := q - f
  if r < 1/2 then f
  else if 1/2 < r then f + 1
  else if f % 2 = 0 then f else f + 1

/-- Largest `e ∈ [-64, 63]` with `2 ^ e ≤ q`; the binary exponent of `q`
for every magnitude arising in the books considered. -/
def expOf (q : ℚ) : ℤ :=
  (List.range 128).foldl (fun acc k => if pow2 ((k : ℤ) - 64) ≤ q then (k : ℤ) - 64 else acc) (-64)

/-- Round a positive rational to the nearest IEEE binary32 value
(24-bit significand, round half to even), returned as its exact value. -/
def fpRoundPos (q : ℚ) : ℚ :=
  let e := expOf q
  let ulp := pow2 (e - 23)
  (rhe (q / ulp) : ℚ) * ulp

/-- Round any rational to the nearest IEEE binary32 value. -/
def fpRound (q : ℚ) : ℚ :=
  if q = 0 then 0 else if q < 0 then -fpRoundPos (-q) else fpRoundPos q

/-- `(float)n` — conversion of a C++ `int` to `float`. -/
def fpOfInt (n : ℤ) : ℚ := fpRound (n : ℚ)

/-- Correctly rounded binary32 division `a / b`.  Division by zero cannot be
reached from a book whose resident orders have positive quantity. -/
def fpDiv (a b : ℚ) : ℚ := if b = 0 then 0 else fpRound (a / b)

/-- Correctly rounded binary32 multiplication. -/
def fpMul (a b : ℚ) : ℚ := fpRound (a * b)

/-- `(int)std::ceil(x)` for a binary32 value `x`: every binary32 of magnitude
below 2^23 has an exactly representable ceiling, and larger ones are already
integral, so the result is the mathematical ceiling of the value. -/
def fpCeilToInt (x : ℚ) : ℤ := ⌈x⌉

/-- The Order entity (src/order.h).  `orderID` holds the value of the
`unsigned long long m_orderID` field; `amount` is the remaining quantity. -/
structure Order where
  ticker : String
  orderID : ℕ
  isMarket : Bool
  isBuy : Bool
  price : ℚ
  time : ℤ
  amount : ℤ
deriving DecidableEq, Repr

/-- Reinterpret the low 32 bits of a natural number as a two's-complement
signed 32-bit integer — the value produced by converting
`unsigned long long` to `int` (Order::getID returns `int`). -/
def toInt32 (n : ℕ) : ℤ :=
  if (n % 4294967296 : ℕ) < 2147483648 then ((n % 4294967296 : ℕ) : ℤ)
  else ((n % 4294967296 : ℕ) : ℤ) - 4294967296

/-- The Order constructor (order.cpp line 51): the caller passes a
`long long orderID`, stored into `unsigned long long m_orderID`
(conversion modulo 2^64). -/
def mkOrder (ticker : String) (orderID : ℤ) (isMarket isBuy : Bool)
    (price : ℚ) (time : ℤ) (amount : ℤ) : Order :=
  ⟨ticker, (orderID % 18446744073709551616).toNat, isMarket, isBuy, price, time, amount⟩

/-- Order::getID (order.h lines 79-82): returns `m_orderID` converted to `int`. -/
def Order.getID (o : Order) : ℤ := toInt32 o.orderID

/-- ProcessedOrder (orderbook.h lines 47-56): one fill record. -/
structure ProcessedOrder where
  buyID : ℤ
  sellID : ℤ
  fillAmount : ℤ
deriving DecidableEq, Repr

/-- Comparator for the buy-side max-heap (orderbook.h lines 143-161):
`order1` ranks below `order2` when its price is lower, or on equal price
when its time is later. -/
def prioritizeMax (order1 order2 : Order) : Bool :=
  if order1.price < order2.price then true
  else if order2.price < order1.price then false
  else decide (order2.time < order1.time)

/-- Comparator for the sell-side min-heap (orderbook.h lines 170-188):
`order1` ranks below `order2` when its price is higher, or on equal price
when its time is later. -/
def prioritizeMin (order1 order2 : Order) : Bool :=
  if order2.price < order1.price then true
  else if order1.price < order2.price then false
  else decide (order2.time < order1.time)

/-- `push` of `std::priority_queue`: adds an element to the container. -/
def push (o : Order) (l : List Order) : List Order := o :: l

/-- `top()`+`pop()` of `std::priority_queue` with comparator `comp`: removes
and returns a maximal element w.r.t. `comp` (the earliest listed one among
equivalent maxima), together with the rest of the container. -/
def popBest (comp : Order → Order → Bool) : List Order → Option (Order × List Order)
  | [] => none
  | x :: xs =>
    match popBest comp xs with
    | none => some (x, xs)
    | some (b, r) => if comp x b then some (b, x :: r) else some (x, xs)

/-- `top()` without removal. -/
def qtop (comp : Order → Order → Bool) (l : List Order) : Option Order :=
  (popBest comp l).map Prod.fst

/-- The Orderbook state (orderbook.h lines 190-196): the two priority
queues and the append-only fill history (`front` of the list = oldest). -/
structure Orderbook where
  buyOrders : List Order
  sellOrders : List Order
  orderHistory : List ProcessedOrder
deriving DecidableEq, Repr

/-- Orderbook::addOrder (orderbook.cpp lines 86-96): pushes the order onto
the buy queue when `checkIsBuy()`, otherwise onto the sell queue.  No
validation is performed and no matching is triggered. -/
def addOrder (ob : Orderbook) (newOrder : Order) : Orderbook :=
  if newOrder.isBuy then { ob with buyOrders := push newOrder ob.buyOrders }
  else { ob with sellOrders := push newOrder ob.sellOrders }

/-- Orderbook::matchOrdersFIFO (orderbook.cpp lines 105-153).  While both
queues are non-empty: pop both tops; if `bestBuy.price ≥ bestSell.price`
fill `min` of the two amounts, record it, and re-insert the side with
quantity left over; otherwise push both back and stop.  Fuel-indexed: each
filling iteration removes at least one resident order for good, so fuel
`buys.length + sells.length` (supplied by `matchOrdersFIFO`) can never be
exhausted. -/
def fifoLoop :
    ℕ → List Order → List Order → List ProcessedOrder →
    List Order × List Order × List ProcessedOrder
  | 0, buys, sells, hist => (buys, sells, hist)
  | fuel + 1, buys, sells, hist =>
    match popBest prioritizeMax buys, popBest prioritizeMin sells with
    | some (bestBuy, buys'), some (bestSell, sells') =>
      if bestSell.price ≤ bestBuy.price then
        let buyAmount := bestBuy.amount
        let sellAmount := bestSell.amount
        if sellAmount < buyAmount then
          fifoLoop fuel (push { bestBuy with amount := buyAmount - sellAmount } buys') sells'
            (hist ++ [⟨bestBuy.getID, bestSell.getID, sellAmount⟩])
        else if buyAmount < sellAmount then
          fifoLoop fuel buys' (push { bestSell with amount := sellAmount - buyAmount } sells')
            (hist ++ [⟨bestBuy.getID, bestSell.getID, buyAmount⟩])
        else
          fifoLoop fuel buys' sells' (hist ++ [⟨bestBuy.getID, bestSell.getID, buyAmount⟩])
      else
        (push bestBuy buys', push bestSell sells', hist)
    | _, _ => (buys, sells, hist)

def matchOrdersFIFO (ob : Orderbook) : Orderbook :=
  match fifoLoop (ob.buyOrders.length + ob.sellOrders.length)
      ob.buyOrders ob.sellOrders ob.orderHistory with
  | (b, s, h) => ⟨b, s, h⟩

/-- The sell-drain loop of matchOrdersProRata (orderbook.cpp lines 182-195):
pop sells whose price is ≤ the best buy price into the temporary list
`matchingOrders`, stopping when the sell queue empties or the next best
sell's price exceeds the buy price.  Returns (temporary list, rest).
Fuel-indexed; one sell is popped per unit of fuel, so fuel `sells.length`
is never exhausted. -/
def drainSellsAux (p : ℚ) : ℕ → List Order → List Order × List Order
  | 0, sells => ([], sells)
  | fuel + 1, sells =>
    match popBest prioritizeMin sells with
    | none => ([], sells)
    | some (bestSell, rest) =>
      if bestSell.price ≤ p then
        let res := drainSellsAux p fuel rest
        (bestSell :: res.1, res.2)
      else ([], sells)

def drainSells (p : ℚ) (sells : List Order) : List Order × List Order :=
  drainSellsAux p sells.length sells

/-- The level-boundary for-loop body of matchOrdersProRata (orderbook.cpp
lines 205-213), iterating `i` with `k` iterations left (`k = n - i`):
`indexNextPriceLevel` (here `inp`) is incremented and then
`matchingOrders[inp]` is read *before* any bounds check.  The model records
every index read; when the read is past the end (the C++ reads an
indeterminate value — undefined behaviour) the loop is in its final
iteration either way, so the returned boundary does not depend on the
garbage comparison. -/
def levelScanAux (m : List Order) (base : ℚ) :
    ℕ → ℕ → List ℕ → ℕ × List ℕ
  | 0, inp, reads => (inp, reads)
  | k + 1, inp, reads =>
    let inp' := inp + 1
    let reads' := reads ++ [inp']
    match m[inp']? with
    | some o => if base < o.price then (inp', reads') else levelScanAux m base k inp' reads'
    | none => (inp', reads')

/-- The full level-boundary scan starting at `curIndex`: returns
`indexNextPriceLevel` and the list of indices the loop read. -/
def levelScan (m : List Order) (curIndex : ℕ) : ℕ × List ℕ :=
  match m[curIndex]? with
  | some o => levelScanAux m o.price (m.length - curIndex) curIndex []
  | none => (curIndex, [])

/-- `curTotalSellAmount` (orderbook.cpp lines 216-220): sum of remaining
quantities of `matchingOrders[curIndex .. indexNextPriceLevel)`. -/
def sumAmounts (l : List Order) : ℤ := (l.map (fun o => o.amount)).sum

/-- The fill for-loop of matchOrdersProRata (orderbook.cpp lines 227-256),
iterating `i` with `k` iterations left (`k = indexNextPriceLevel - i`).
`B0` is `buyAmountBeforeFillingCurPriceLevel`, `L` is `curTotalSellAmount`.
Each step computes `proportion = (float)sellAmount / (float)L` and
`amountFilled = min(min(buyAmount, sellAmount), (int)ceil(B0 * proportion))`
in binary32, reduces both sides, appends a record, and stops the level (and
the whole match, via `buyOrdersStillRemaining = false`) when the buy
quantity reaches 0.  The guard `i >= numMatchingSells` reproduces the
code's defensive branch (stderr message, flag reset, break).
Returns (updated list, buy quantity, `buyOrdersStillRemaining`, history). -/
def fillLevelAux (buyID : ℤ) (B0 L : ℤ) :
    ℕ → List Order → ℕ → ℤ → List ProcessedOrder →
    List Order × ℤ × Bool × List ProcessedOrder
  | 0, m, _, buyAmount, hist => (m, buyAmount, true, hist)
  | k + 1, m, i, buyAmount, hist =>
    if m.length ≤ i then (m, buyAmount, false, hist)
    else
      match m[i]? with
      | none => (m, buyAmount, false, hist)
      | some o =>
        let sellAmount := o.amount
        let proportion := fpDiv (fpOfInt sellAmount) (fpOfInt L)
        let amountFilled :=
          min (min buyAmount sellAmount) (fpCeilToInt (fpMul (fpOfInt B0) proportion))
        let buyAmount' := buyAmount - amountFilled
        let m' := m.set i { o with amount := sellAmount - amountFilled }
        let hist' := hist ++ [⟨buyID, o.getID, amountFilled⟩]
        if buyAmount' = 0 then (m', buyAmount', false, hist')
        else fillLevelAux buyID B0 L k m' (i + 1) buyAmount' hist'

/-- The per-price-level while-loop of matchOrdersProRata (orderbook.cpp
lines 202-260): while `curIndex < numMatchingSells` and buy quantity
remains, scan the level boundary, total the level, fill it, and advance
`curIndex` to `indexNextPriceLevel`.  Fuel-indexed; the callers supply
more fuel than the loop can consume.  Also accumulates, as
`(index, list length)` pairs, every read the boundary scan performs. -/
def levelsLoopAux (buyID : ℤ) :
    ℕ → List Order → ℕ → ℤ → List ProcessedOrder → List (ℕ × ℕ) →
    List Order × ℤ × List ProcessedOrder × List (ℕ × ℕ)
  | 0, m, _, b, hist, reads => (m, b, hist, reads)
  | f + 1, m, c, b, hist, reads =>
    if c < m.length then
      let scan := levelScan m c
      let inp := scan.1
      let reads' := reads ++ scan.2.map (fun j => (j, m.length))
      let L := sumAmounts ((m.drop c).take (inp - c))
      match fillLevelAux buyID b L (inp - c) m c b hist with
      | (m', b', still, hist') =>
        if still then levelsLoopAux buyID f m' inp b' hist' reads'
        else (m', b', hist', reads')
    else (m, b, hist, reads)

/-- The outer while-loop of matchOrdersProRata (orderbook.cpp lines
167-277): stop when a queue is empty or the best prices do not cross;
otherwise pop the best buy, drain all matching sells, fill them level by
level, and push back every order with positive remaining quantity. -/
def proRataLoop :
    ℕ → List Order → List Order → List ProcessedOrder → List (ℕ × ℕ) →
    List Order × List Order × List ProcessedOrder × List (ℕ × ℕ)
  | 0, buys, sells, hist, reads => (buys, sells, hist, reads)
  | f + 1, buys, sells, hist, reads =>
    match popBest prioritizeMax buys, popBest prioritizeMin sells with
    | some (bestBuy, buys'), some (bestSell, _) =>
      if bestBuy.price < bestSell.price then (buys, sells, hist, reads)
      else
        let buyAmount := bestBuy.amount
        let dr := drainSells bestBuy.price sells
        match levelsLoopAux bestBuy.getID (dr.1.length + 1) dr.1 0 buyAmount hist reads with
        | (m', b', hist', reads') =>
          let sells2 := (m'.filter (fun o => 0 < o.amount)).foldl (fun acc o => push o acc) dr.2
          let buys2 := if 0 < b' then push { bestBuy with amount := b' } buys' else buys'
          proRataLoop f buys2 sells2 hist' reads'
    | _, _ => (buys, sells, hist, reads)

/-- Fuel that the outer pro-rata loop can never exhaust on books with
positive quantities; any sufficient bound works because every theorem about
the loop is either fuel-generic or holds at every exit. -/
def proRataFuel (ob : Orderbook) : ℕ :=
  ob.buyOrders.length + (ob.buyOrders.map (fun o => o.amount.toNat)).sum + 1

def matchOrdersProRata (ob : Orderbook) : Orderbook :=
  match proRataLoop (proRataFuel ob) ob.buyOrders ob.sellOrders ob.orderHistory [] with
  | (b, s, h, _) => ⟨b, s, h⟩

/-- The trace of every `matchingOrders[·]` read the level-boundary scans of
a matchOrdersProRata pass perform, as `(index, list length)` pairs. -/
def proRataScanReads (ob : Orderbook) : List (ℕ × ℕ) :=
  (proRataLoop (proRataFuel ob) ob.buyOrders ob.sellOrders ob.orderHistory []).2.2.2

/-- First loop of Orderbook::printOrderbookContents (orderbook.cpp lines
313-317): move every sell order onto a stack, emptying the sell queue.
Returns (sell queue at exit, stack).  Fuel-indexed; fuel `sells.length`
is never exhausted. -/
def drainToStackAux : ℕ → List Order → List Order → List Order × List Order
  | 0, sells, stack => (sells, stack)
  | fuel + 1, sells, stack =>
    match popBest prioritizeMin sells with
    | none => (sells, stack)
    | some (s, rest) => drainToStackAux fuel rest (s :: stack)

def drainToStack (sells : List Order) (stack : List Order) : List Order × List Order :=
  drainToStackAux sells.length sells stack

/-- Third loop of Orderbook::printOrderbookContents (orderbook.cpp lines
335-347): print each best buy and pop it, emptying the buy queue.
Returns (buy queue at exit, print order).  Fuel-indexed; fuel
`buys.length` is never exhausted. -/
def popAllBuysAux : ℕ → List Order → List Order → List Order × List Order
  | 0, buys, out => (buys, out)
  | fuel + 1, buys, out =>
    match popBest prioritizeMax buys with
    | none => (buys, out)
    | some (b, rest) => popAllBuysAux fuel rest (out ++ [b])

def popAllBuys (buys : List Order) (out : List Order) : List Order × List Order :=
  popAllBuysAux buys.length buys out

/-- Orderbook::printOrderbookContents (orderbook.cpp lines 306-348): prints
sells (popped from the stack, descending price) then buys (popped from the
queue).  Returns the book state after the call together with the two print
sequences. -/
def printOrderbookContents (ob : Orderbook) : Orderbook × List Order × List Order :=
  let s := drainToStack ob.sellOrders []
  let b := popAllBuys ob.buyOrders []
  (⟨b.1, s.1, ob.orderHistory⟩, s.2, b.2)

/-- Fully drain a queue in priority order (the order `top()`/`pop()` would
deliver the resident orders).  Fuel-indexed; fuel `l.length` is never
exhausted. -/
def drainAllAux (comp : Order → Order → Bool) : ℕ → List Order → List Order
  | 0, _ => []
  | fuel + 1, l =>
    match popBest comp l with
    | none => []
    | some (b, rest) => b :: drainAllAux comp fuel rest

def drainAll (comp : Order → Order → Bool) (l : List Order) : List Order :=
  drainAllAux comp l.length l

/-- Sum of the remaining quantities of the resident orders whose reported ID
(`getID`, the value stored into fill records) equals `id`. -/
def qtyWithID (id : ℤ) (l : List Order) : ℤ :=
  ((l.filter (fun o => o.getID = id)).map (fun o => o.amount)).sum

/-- Sum of the fill quantities recorded against buy ID `id`. -/
def buyFills (id : ℤ) (h : List ProcessedOrder) : ℤ :=
  ((h.filter (fun p => p.buyID = id)).map (fun p => p.fillAmount)).sum

/-- Sum of the fill quantities recorded against sell ID `id`. -/
def sellFills (id : ℤ) (h : List ProcessedOrder) : ℤ :=
  ((h.filter (fun p => p.sellID = id)).map (fun p => p.fillAmount)).sum

/-- Price-time priority on the buy side, as the spec states it: `a` is
returned before `b` when `a` has the higher price, or on equal price the
earlier submit time. -/
def buyBefore (a b : Order) : Prop :=
  b.price < a.price ∨ (a.price = b.price ∧ a.time < b.time)

/-- Price-time priority on the sell side, as the spec states it: `a` is
returned before `b` when `a` has the lower price, or on equal price the
earlier submit time. -/
def sellBefore (a b : Order) : Prop :=
  a.price < b.price ∨ (a.price = b.price ∧ a.time < b.time)

/-- Modelled from the spec: the proportional entitlement
`ceil(B0 * sellQty / L)` computed with exact integer/rational arithmetic,
as the claim's words state it.  It exists only to be compared against the
binary32 computation the code performs. -/
def specEntitlement (B0 sellQty L : ℤ) : ℤ := ⌈((B0 * sellQty : ℤ) : ℚ) / (L : ℚ)⌉

theorem popBest_none_iff (comp : Order → Order → Bool) (l : List Order) :
    popBest comp l = none ↔ l = [] := by
  cases l with
  | nil => simp [popBest]
  | cons x xs =>
    simp only [popBest]
    cases h : popBest comp xs with
    | none => simp
    | some p =>
      cases p with
      | mk b r => by_cases hc : comp x b <;> simp [hc]

theorem popBest_perm (comp : Order → Order → Bool) :
    ∀ (l : List Order) (b : Order) (r : List Order),
      popBest comp l = some (b, r) → l.Perm (b :: r) := by
  intro l
  induction l with
  | nil => intro b r h; simp [popBest] at h
  | cons x xs ih =>
    intro b r h
    simp only [popBest] at h
    cases hx : popBest comp xs with
    | none =>
      rw [hx] at h
      simp only [Option.some.injEq, Prod.mk.injEq] at h
      obtain ⟨hb, hr⟩ := h
      subst hb; subst hr
      exact List.Perm.refl _
    | some p =>
      cases p with
      | mk b' r' =>
        rw [hx] at h
        by_cases hc : comp x b'
        · simp only [hc, if_true, Option.some.injEq, Prod.mk.injEq] at h
          obtain ⟨hb, hr⟩ := h
          subst hb; subst hr
          exact (List.Perm.cons x (ih b' r' hx)).trans (List.Perm.swap b' x r')
        · simp only [hc, if_false, Bool.false_eq_true, Option.some.injEq,
            Prod.mk.injEq] at h
          obtain ⟨hb, hr⟩ := h
          subst hb; subst hr
          exact List.Perm.refl _

theorem popBest_length (comp : Order → Order → Bool) (l : List Order)
    (b : Order) (r : List Order) (h : popBest comp l = some (b, r)) :
    r.length + 1 = l.length := by
  have := (popBest_perm comp l b r h).length_eq
  simpa using this.symm

theorem popBest_mem (comp : Order → Order → Bool) (l : List Order)
    (b : Order) (r : List Order) (h : popBest comp l = some (b, r)) :
    b ∈ l := by
  have := (popBest_perm comp l b r h).mem_iff (a := b)
  simp at this
  exact this

theorem popBest_rest_subset (comp : Order → Order → Bool) (l : List Order)
    (b : Order) (r : List Order) (h : popBest comp l = some (b, r)) :
    ∀ x ∈ r, x ∈ l := by
  intro x hx
  have := (popBest_perm comp l b r h).mem_iff (a := x)
  simp [hx] at this
  tauto

theorem drainToStackAux_fst :
    ∀ (fuel : ℕ) (sells stack : List Order), sells.length ≤ fuel →
      (drainToStackAux fuel sells stack).1 = [] := by
  intro fuel
  induction fuel with
  | zero =>
    intro sells stack hlen
    have : sells = [] := List.eq_nil_of_length_eq_zero (by omega)
    subst this
    rfl
  | succ n ih =>
    intro sells stack hlen
    simp only [drainToStackAux]
    cases hs : popBest prioritizeMin sells with
    | none =>
      have : sells = [] := (popBest_none_iff _ _).mp hs
      subst this
      rfl
    | some p =>
      cases p with
      | mk s rest =>
        have hr := popBest_length prioritizeMin sells s rest hs
        exact ih rest (s :: stack) (by omega)

theorem popAllBuysAux_fst :
    ∀ (fuel : ℕ) (buys out : List Order), buys.length ≤ fuel →
      (popAllBuysAux fuel buys out).1 = [] := by
  intro fuel
  induction fuel with
  | zero =>
    intro buys out hlen
    have : buys = [] := List.eq_nil_of_length_eq_zero (by omega)
    subst this
    rfl
  | succ n ih =>
    intro buys out hlen
    simp only [popAllBuysAux]
    cases hb : popBest prioritizeMax buys with
    | none =>
      have : buys = [] := (popBest_none_iff _ _).mp hb
      subst this
      rfl
    | some p =>
      cases p with
      | mk b rest =>
        have hr := popBest_length prioritizeMax buys b rest hb
        exact ih rest (out ++ [b]) (by omega)

def tkr : String := "T"

/-- C3, counterexample: an order with remaining quantity 0 (hence
`remainingQty ≤ 0`) is nevertheless inserted into the buy queue by
`addOrder`, so the claim that such orders are rejected and not inserted is
false of the code. -/
theorem C3_counterexample :
    (mkOrder tkr 7 false true 10 900 0).amount ≤ 0 ∧
    (addOrder ⟨[], [], []⟩ (mkOrder tkr 7 false true 10 900 0)).buyOrders
      = [mkOrder tkr 7 false true 10 900 0] := by
  exact ⟨by decide, rfl⟩

/-- C3, amended: `addOrder` performs no validation at all — every order,
including one with non-positive remaining quantity or price, is inserted
into the buy queue when its side is buy and into the sell queue when its
side is sell; the other queue and the fill history are untouched, and no
matching is triggered. -/
theorem C3_amended_no_validation (ob : Orderbook) (o : Order) :
    (addOrder ob o).buyOrders = (if o.isBuy then push o ob.buyOrders else ob.buyOrders) ∧
    (addOrder ob o).sellOrders = (if o.isBuy then ob.sellOrders else push o ob.sellOrders) ∧
    (addOrder ob o).orderHistory = ob.orderHistory := by
  unfold addOrder
  by_cases h : o.isBuy <;> simp [h]

/-- C9, counterexample: the snapshot operation does not leave the queues as
they were — on a book with one resident sell, the sell queue after
`printOrderbookContents` differs from the sell queue before it. -/
theorem C9_counterexample :
    (printOrderbookContents ⟨[mkOrder tkr 1 false true 10 900 5],
        [mkOrder tkr 2 false false 10 800 5], []⟩).1.sellOrders ≠
      [mkOrder tkr 2 false false 10 800 5] := by
  decide

/-- C9, amended: `printOrderbookContents` is destructive: it fully drains
both queues and does not rebuild them, so after it returns both queues are
empty; the fill ledger is unchanged. -/
theorem C9_amended_snapshot_drains (ob : Orderbook) :
    (printOrderbookContents ob).1.buyOrders = [] ∧
    (printOrderbookContents ob).1.sellOrders = [] ∧
    (printOrderbookContents ob).1.orderHistory = ob.orderHistory := by
  refine ⟨?_, ?_, rfl⟩
  · exact popAllBuysAux_fst ob.buyOrders.length ob.buyOrders [] le_rfl
  · exact drainToStackAux_fst ob.sellOrders.length ob.sellOrders [] le_rfl

/-- C10: order IDs are accepted as 64-bit integers but reported through a
32-bit signed int: the reported ID is the caller-assigned ID reduced
modulo 2^32 and reinterpreted as signed; IDs representable in a signed
32-bit int are reported unchanged; and two caller IDs that agree modulo
2^32 are indistinguishable through `getID` (hence in every fill record,
which stores only `getID` values). -/
theorem C10_id_truncation (t : String) (im ib : Bool) (p : ℚ) (tm am : ℤ)
    (id1 id2 : ℤ) :
    (Order.getID (mkOrder t id1 im ib p tm am) =
      (if id1 % 4294967296 < 2147483648 then id1 % 4294967296
       else id1 % 4294967296 - 4294967296)) ∧
    (-2147483648 ≤ id1 → id1 < 2147483648 →
      Order.getID (mkOrder t id1 im ib p tm am) = id1) ∧
    (id1 % 4294967296 = id2 % 4294967296 →
      Order.getID (mkOrder t id1 im ib p tm am) =
        Order.getID (mkOrder t id2 im ib p tm am)) := by
  have key : ∀ z : ℤ, Order.getID (mkOrder t z im ib p tm am) =
      (if z % 4294967296 < 2147483648 then z % 4294967296
       else z % 4294967296 - 4294967296) := by
    intro z
    simp only [Order.getID, mkOrder, toInt32]
    omega
  refine ⟨key id1, ?_, ?_⟩
  · intro hlo hhi
    rw [key id1]
    omega
  · intro hmod
    rw [key id1, key id2, hmod]

/-- C10, witness: concrete evaluations — 2^32 + 5 is reported as 5, the
small ID 7 is reported unchanged, and -1 collides with 2^32 - 1. -/
theorem C10_witness :
    Order.getID (mkOrder tkr 4294967301 false true 10 0 1) = 5 ∧
    Order.getID (mkOrder tkr 7 false true 10 0 1) = 7 ∧
    Order.getID (mkOrder tkr (-1) false true 10 0 1) =
      Order.getID (mkOrder tkr 4294967295 false true 10 0 1) := by
  refine ⟨?_, ?_, ?_⟩
  · rw [(C10_id_truncation tkr false true 10 0 1 4294967301 0).1]
    decide
  · exact (C10_id_truncation tkr false true 10 0 1 7 0).2.1 (by decide) (by decide)
  · exact (C10_id_truncation tkr false true 10 0 1 (-1) 4294967295).2.2 (by decide)

set_option maxRecDepth 100000 in
unseal Rat.mul Rat.inv Rat.add Rat.sub in
/-- C2 (code bug): on the smallest crossing book the pro-rata level-boundary
scan reads `matchingOrders[1]` while the temporary list has length 1 — an
out-of-bounds read (undefined behaviour in the C++), and the pass then
completes normally, recording the fill, instead of aborting with an
`InternalInvariantViolation`. -/
theorem C2_oob_scan_read :
    proRataScanReads ⟨[mkOrder tkr 1 false true 10 900 5],
        [mkOrder tkr 2 false false 10 800 5], []⟩ = [(1, 1)] ∧
    (matchOrdersProRata ⟨[mkOrder tkr 1 false true 10 900 5],
        [mkOrder tkr 2 false false 10 800 5], []⟩).orderHistory = [⟨1, 2, 5⟩] := by
  constructor <;> decide

/-- C6: when both queues are non-empty and the best buy price is strictly
below the best sell price, both matching passes terminate at once with no
fill recorded: FIFO pops both bests and pushes them back unchanged (the
queues keep exactly the same orders), and pro-rata returns the book
entirely untouched. -/
theorem C6_no_cross_frame (ob : Orderbook) (bestBuy bestSell : Order)
    (buys' sells' : List Order)
    (hb : popBest prioritizeMax ob.buyOrders = some (bestBuy, buys'))
    (hs : popBest prioritizeMin ob.sellOrders = some (bestSell, sells'))
    (hp : bestBuy.price < bestSell.price) :
    matchOrdersFIFO ob = ⟨push bestBuy buys', push bestSell sells', ob.orderHistory⟩ ∧
    (matchOrdersFIFO ob).buyOrders.Perm ob.buyOrders ∧
    (matchOrdersFIFO ob).sellOrders.Perm ob.sellOrders ∧
    matchOrdersProRata ob = ob := by
  have hlen1 : 1 ≤ ob.buyOrders.length := by
    cases hcb : ob.buyOrders with
    | nil => rw [hcb] at hb; simp [popBest] at hb
    | cons a l => simp
  obtain ⟨k, hk⟩ : ∃ k, ob.buyOrders.length + ob.sellOrders.length = k + 1 :=
    ⟨ob.buyOrders.length + ob.sellOrders.length - 1, by omega⟩
  have hnot : ¬ (bestSell.price ≤ bestBuy.price) := not_le.mpr hp
  have hfifo : matchOrdersFIFO ob =
      ⟨push bestBuy buys', push bestSell sells', ob.orderHistory⟩ := by
    unfold matchOrdersFIFO
    rw [hk]
    simp only [fifoLoop]
    rw [hb, hs]
    simp [hnot]
  have hpro : matchOrdersProRata ob = ob := by
    unfold matchOrdersProRata proRataFuel
    simp only [proRataLoop]
    rw [hb, hs]
    simp [hp]
  refine ⟨hfifo, ?_, ?_, hpro⟩
  · rw [hfifo]
    exact (popBest_perm _ _ _ _ hb).symm
  · rw [hfifo]
    exact (popBest_perm _ _ _ _ hs).symm

/-- C6, witness: buy at 9 versus sell at 10 — both passes leave the
one-buy, one-sell book exactly as it was, with no fill. -/
theorem C6_witness :
    matchOrdersFIFO ⟨[mkOrder tkr 1 false true 9 900 5],
        [mkOrder tkr 2 false false 10 800 5], []⟩ =
      ⟨[mkOrder tkr 1 false true 9 900 5], [mkOrder tkr 2 false false 10 800 5], []⟩ ∧
    matchOrdersProRata ⟨[mkOrder tkr 1 false true 9 900 5],
        [mkOrder tkr 2 false false 10 800 5], []⟩ =
      ⟨[mkOrder tkr 1 false true 9 900 5], [mkOrder tkr 2 false false 10 800 5], []⟩ := by
  have h := C6_no_cross_frame
    ⟨[mkOrder tkr 1 false true 9 900 5], [mkOrder tkr 2 false false 10 800 5], []⟩
    (mkOrder tkr 1 false true 9 900 5) (mkOrder tkr 2 false false 10 800 5) [] []
    rfl rfl (by decide)
  exact ⟨h.1, h.2.2.2⟩

/-- C5: in a FIFO iteration where the best prices cross, the loop continues
on the state in which both orders were reduced by exactly
`min(bestBuy.remainingQty, bestSell.remainingQty)`, exactly one fill record
with that quantity and both reported IDs was appended, the order retaining
positive quantity (if any) was pushed back, and a fully filled order was
dropped. -/
theorem C5_fifo_trade_step (fuel : ℕ) (buys sells : List Order)
    (hist : List ProcessedOrder) (bestBuy bestSell : Order)
    (buys' sells' : List Order)
    (hb : popBest prioritizeMax buys = some (bestBuy, buys'))
    (hs : popBest prioritizeMin sells = some (bestSell, sells'))
    (hp : bestSell.price ≤ bestBuy.price) :
    fifoLoop (fuel + 1) buys sells hist =
      fifoLoop fuel
        (if bestSell.amount < bestBuy.amount
         then push { bestBuy with amount := bestBuy.amount - bestSell.amount } buys'
         else buys')
        (if bestBuy.amount < bestSell.amount
         then push { bestSell with amount := bestSell.amount - bestBuy.amount } sells'
         else sells')
        (hist ++ [⟨bestBuy.getID, bestSell.getID, min bestBuy.amount bestSell.amount⟩]) := by
  simp only [fifoLoop]
  rw [hb, hs]
  simp only [hp, if_true]
  rcases lt_trichotomy bestSell.amount bestBuy.amount with h | h | h
  · have h2 : ¬ bestBuy.amount < bestSell.amount := by omega
    simp only [if_pos h, if_neg h2, min_eq_right (le_of_lt h)]
  · simp only [h, lt_self_iff_false, if_false, min_self]
  · have h1 : ¬ bestSell.amount < bestBuy.amount := by omega
    simp only [if_neg h1, if_pos h, min_eq_left (le_of_lt h)]

theorem prioritizeMax_iff (a b : Order) :
    prioritizeMax a b = true ↔ buyBefore b a := by
  unfold prioritizeMax buyBefore
  rcases lt_trichotomy a.price b.price with hp | hp | hp
  · simp [hp, lt_asymm hp]
  · simp [hp, lt_irrefl, decide_eq_true_eq]
  · simp [hp, lt_asymm hp, ne_of_lt hp]

theorem prioritizeMin_iff (a b : Order) :
    prioritizeMin a b = true ↔ sellBefore b a := by
  unfold prioritizeMin sellBefore
  rcases lt_trichotomy b.price a.price with hp | hp | hp
  · simp [hp, lt_asymm hp]
  · simp [hp, lt_irrefl, decide_eq_true_eq]
  · simp [hp, lt_asymm hp, ne_of_gt hp]

theorem buyBefore_asymm (a b : Order) : buyBefore a b → ¬ buyBefore b a := by
  intro h1 h2
  unfold buyBefore at h1 h2
  rcases h1 with hp1 | ⟨hpe1, ht1⟩ <;> rcases h2 with hp2 | ⟨hpe2, ht2⟩ <;> linarith

theorem sellBefore_asymm (a b : Order) : sellBefore a b → ¬ sellBefore b a := by
  intro h1 h2
  unfold sellBefore at h1 h2
  rcases h1 with hp1 | ⟨hpe1, ht1⟩ <;> rcases h2 with hp2 | ⟨hpe2, ht2⟩ <;> linarith

theorem buyBefore_shift (a b c : Order) :
    buyBefore c a → ¬ buyBefore c b → buyBefore b a := by
  intro h1 h2
  unfold buyBefore at h1 h2 ⊢
  push_neg at h2
  obtain ⟨h2a, h2b⟩ := h2
  have hcb : c.price ≤ b.price := h2a
  rcases h1 with hp | ⟨hpe, ht⟩
  · exact Or.inl (lt_of_lt_of_le hp hcb)
  · rcases eq_or_lt_of_le hcb with he | hlt2
    · have hbt : b.time ≤ c.time := h2b he
      exact Or.inr ⟨he.symm.trans hpe, by omega⟩
    · rw [hpe] at hlt2
      exact Or.inl hlt2

theorem sellBefore_shift (a b c : Order) :
    sellBefore c a → ¬ sellBefore c b → sellBefore b a := by
  intro h1 h2
  unfold sellBefore at h1 h2 ⊢
  push_neg at h2
  obtain ⟨h2a, h2b⟩ := h2
  have hcb : b.price ≤ c.price := h2a
  rcases h1 with hp | ⟨hpe, ht⟩
  · exact Or.inl (lt_of_le_of_lt hcb hp)
  · rcases eq_or_lt_of_le hcb with he | hlt2
    · have hbt : b.time ≤ c.time := h2b he.symm
      exact Or.inr ⟨he.trans hpe, by omega⟩
    · rw [hpe] at hlt2
      exact Or.inl hlt2

theorem prioritizeMax_asym (a b : Order) :
    prioritizeMax a b = true → prioritizeMax b a = false := by
  intro h
  have hb := (prioritizeMax_iff a b).mp h
  rcases hba : prioritizeMax b a with _ | _
  · rfl
  · exact absurd ((prioritizeMax_iff b a).mp hba) (buyBefore_asymm _ _ hb)

theorem prioritizeMin_asym (a b : Order) :
    prioritizeMin a b = true → prioritizeMin b a = false := by
  intro h
  have hb := (prioritizeMin_iff a b).mp h
  rcases hba : prioritizeMin b a with _ | _
  · rfl
  · exact absurd ((prioritizeMin_iff b a).mp hba) (sellBefore_asymm _ _ hb)

theorem prioritizeMax_htrans (a b c : Order) :
    prioritizeMax a c = true → prioritizeMax b c = false → prioritizeMax a b = true := by
  intro h1 h2
  have hca := (prioritizeMax_iff a c).mp h1
  have hcb : ¬ buyBefore c b := by
    intro hx
    rw [(prioritizeMax_iff b c).mpr hx] at h2
    exact absurd h2 (by simp)
  exact (prioritizeMax_iff a b).mpr (buyBefore_shift a b c hca hcb)

theorem prioritizeMin_htrans (a b c : Order) :
    prioritizeMin a c = true → prioritizeMin b c = false → prioritizeMin a b = true := by
  intro h1 h2
  have hca := (prioritizeMin_iff a c).mp h1
  have hcb : ¬ sellBefore c b := by
    intro hx
    rw [(prioritizeMin_iff b c).mpr hx] at h2
    exact absurd h2 (by simp)
  exact (prioritizeMin_iff a b).mpr (sellBefore_shift a b c hca hcb)

theorem popBest_max (comp : Order → Order → Bool)
    (hasym : ∀ a b, comp a b = true → comp b a = false)
    (htrans : ∀ a b c, comp a c = true → comp b c = false → comp a b = true) :
    ∀ (l : List Order) (b : Order) (r : List Order),
      popBest comp l = some (b, r) → ∀ x ∈ r, comp b x = false := by
  intro l
  induction l with
  | nil => intro b r h; simp [popBest] at h
  | cons y ys ih =>
    intro b r h x hx
    simp only [popBest] at h
    cases hy : popBest comp ys with
    | none =>
      rw [hy] at h
      have hnil : ys = [] := (popBest_none_iff _ _).mp hy
      simp only [Option.some.injEq, Prod.mk.injEq] at h
      obtain ⟨hb, hr⟩ := h
      subst hb; subst hr; subst hnil
      simp at hx
    | some p =>
      cases p with
      | mk b' r' =>
        rw [hy] at h
        by_cases hc : comp y b'
        · simp only [hc, if_true, Option.some.injEq, Prod.mk.injEq] at h
          obtain ⟨hb, hr⟩ := h
          subst hb; subst hr
          rcases List.mem_cons.mp hx with hxy | hxr
          · subst hxy; exact hasym _ _ hc
          · exact ih b' r' hy x hxr
        · simp only [hc, if_false, Bool.false_eq_true, Option.some.injEq,
            Prod.mk.injEq] at h
          obtain ⟨hb, hr⟩ := h
          subst hb; subst hr
          have hmem := (popBest_perm comp ys b' r' hy).mem_iff (a := x)
          rcases List.mem_cons.mp (hmem.mp hx) with hxb | hxr
          · subst hxb
            exact Bool.eq_false_iff.mpr hc
          · have hbx := ih b' r' hy x hxr
            cases hyx : comp y x with
            | false => rfl
            | true => exact absurd (htrans y b' x hyx hbx) hc

/-- C5, witness: buy of 8 against sell of 3 at the same price — fill of 3
recorded, buy pushed back with 5 remaining, sell dropped. -/
theorem C5_witness :
    fifoLoop 1 [mkOrder tkr 1 false true 10 900 8] [mkOrder tkr 2 false false 10 800 3]
        [] =
      ([{ mkOrder tkr 1 false true 10 900 8 with amount := 5 }], [], [⟨1, 2, 3⟩]) := by
  have h := C5_fifo_trade_step 0 [mkOrder tkr 1 false true 10 900 8]
    [mkOrder tkr 2 false false 10 800 3] []
    (mkOrder tkr 1 false true 10 900 8) (mkOrder tkr 2 false false 10 800 3) [] []
    rfl rfl (by decide)
  rw [h]
  decide

theorem drainAllAux_perm (comp : Order → Order → Bool) :
    ∀ (fuel : ℕ) (l : List Order), l.length ≤ fuel →
      (drainAllAux comp fuel l).Perm l := by
  intro fuel
  induction fuel with
  | zero =>
    intro l h
    have : l = [] := List.eq_nil_of_length_eq_zero (by omega)
    subst this
    exact List.Perm.refl _
  | succ n ih =>
    intro l h
    simp only [drainAllAux]
    cases hb : popBest comp l with
    | none =>
      have : l = [] := (popBest_none_iff _ _).mp hb
      subst this
      exact List.Perm.refl _
    | some p =>
      cases p with
      | mk b rest =>
        have hlen := popBest_length comp l b rest hb
        have hperm := popBest_perm comp l b rest hb
        exact ((ih rest (by omega)).cons b).trans hperm.symm

theorem drainAllAux_pairwise (comp : Order → Order → Bool)
    (hasym : ∀ a b, comp a b = true → comp b a = false)
    (htrans : ∀ a b c, comp a c = true → comp b c = false → comp a b = true) :
    ∀ (fuel : ℕ) (l : List Order), l.length ≤ fuel →
      (drainAllAux comp fuel l).Pairwise (fun x y => comp x y = false) := by
  intro fuel
  induction fuel with
  | zero => intro l h; exact List.Pairwise.nil
  | succ n ih =>
    intro l h
    simp only [drainAllAux]
    cases hb : popBest comp l with
    | none => exact List.Pairwise.nil
    | some p =>
      cases p with
      | mk b rest =>
        have hlen := popBest_length comp l b rest hb
        refine List.pairwise_cons.mpr ⟨?_, ih rest (by omega)⟩
        intro y hy
        have hyr : y ∈ rest := (drainAllAux_perm comp n rest (by omega)).mem_iff.mp hy
        exact popBest_max comp hasym htrans l b rest hb y hyr

/-- C7: the queue orderings realise price-time priority exactly.  Draining
either queue returns exactly its resident orders (a permutation), and in
the drained sequence no later order has priority over an earlier one: on
the buy side an order with the higher price — or equal price and earlier
submit time — is always returned first, and likewise on the sell side with
the lower price first. -/
theorem C7_price_time_priority (l : List Order) :
    (drainAll prioritizeMax l).Perm l ∧
    (drainAll prioritizeMax l).Pairwise (fun a b => ¬ buyBefore b a) ∧
    (drainAll prioritizeMin l).Perm l ∧
    (drainAll prioritizeMin l).Pairwise (fun a b => ¬ sellBefore b a) := by
  refine ⟨drainAllAux_perm _ _ _ le_rfl, ?_, drainAllAux_perm _ _ _ le_rfl, ?_⟩
  · refine (drainAllAux_pairwise prioritizeMax prioritizeMax_asym prioritizeMax_htrans
      _ _ le_rfl).imp ?_
    intro a b hab hbad
    rw [(prioritizeMax_iff a b).mpr hbad] at hab
    exact absurd hab (by simp)
  · refine (drainAllAux_pairwise prioritizeMin prioritizeMin_asym prioritizeMin_htrans
      _ _ le_rfl).imp ?_
    intro a b hab hbad
    rw [(prioritizeMin_iff a b).mpr hbad] at hab
    exact absurd hab (by simp)

theorem matchOrdersFIFO_eq (ob : Orderbook) :
    matchOrdersFIFO ob =
      ⟨(fifoLoop (ob.buyOrders.length + ob.sellOrders.length)
          ob.buyOrders ob.sellOrders ob.orderHistory).1,
       (fifoLoop (ob.buyOrders.length + ob.sellOrders.length)
          ob.buyOrders ob.sellOrders ob.orderHistory).2.1,
       (fifoLoop (ob.buyOrders.length + ob.sellOrders.length)
          ob.buyOrders ob.sellOrders ob.orderHistory).2.2⟩ := rfl

theorem matchOrdersProRata_eq (ob : Orderbook) :
    matchOrdersProRata ob =
      ⟨(proRataLoop (proRataFuel ob) ob.buyOrders ob.sellOrders ob.orderHistory []).1,
       (proRataLoop (proRataFuel ob) ob.buyOrders ob.sellOrders ob.orderHistory []).2.1,
       (proRataLoop (proRataFuel ob) ob.buyOrders ob.sellOrders ob.orderHistory []).2.2.1⟩ := rfl

theorem fifoLoop_pos :
    ∀ (fuel : ℕ) (buys sells : List Order) (hist : List ProcessedOrder),
      (∀ o ∈ buys, 0 < o.amount) → (∀ o ∈ sells, 0 < o.amount) →
      (∀ o ∈ (fifoLoop fuel buys sells hist).1, 0 < o.amount) ∧
      (∀ o ∈ (fifoLoop fuel buys sells hist).2.1, 0 < o.amount) := by
  intro fuel
  induction fuel with
  | zero => intro buys sells hist hb hs; exact ⟨hb, hs⟩
  | succ n ih =>
    intro buys sells hist hb hs
    simp only [fifoLoop]
    cases hpb : popBest prioritizeMax buys with
    | none => exact ⟨hb, hs⟩
    | some pb =>
      cases pb with
      | mk bestBuy buys' =>
        cases hps : popBest prioritizeMin sells with
        | none => exact ⟨hb, hs⟩
        | some ps =>
          cases ps with
          | mk bestSell sells' =>
            have hbb : 0 < bestBuy.amount := hb _ (popBest_mem _ _ _ _ hpb)
            have hbs : 0 < bestSell.amount := hs _ (popBest_mem _ _ _ _ hps)
            have hb' : ∀ o ∈ buys', 0 < o.amount :=
              fun o ho => hb o (popBest_rest_subset _ _ _ _ hpb o ho)
            have hs' : ∀ o ∈ sells', 0 < o.amount :=
              fun o ho => hs o (popBest_rest_subset _ _ _ _ hps o ho)
            by_cases hp : bestSell.price ≤ bestBuy.price
            · simp only [hp, if_true]
              by_cases h1 : bestSell.amount < bestBuy.amount
              · simp only [h1, if_true]
                refine ih _ _ _ ?_ hs'
                intro o ho
                rcases List.mem_cons.mp ho with rfl | ho'
                · simpa using by omega
                · exact hb' o ho'
              · simp only [h1, if_false]
                by_cases h2 : bestBuy.amount < bestSell.amount
                · simp only [h2, if_true]
                  refine ih _ _ _ hb' ?_
                  intro o ho
                  rcases List.mem_cons.mp ho with rfl | ho'
                  · simpa using by omega
                  · exact hs' o ho'
                · simp only [h2, if_false]
                  exact ih _ _ _ hb' hs'
            · simp only [hp, if_false]
              constructor
              · intro o ho
                rcases List.mem_cons.mp ho with rfl | ho'
                · exact hbb
                · exact hb' o ho'
              · intro o ho
                rcases List.mem_cons.mp ho with rfl | ho'
                · exact hbs
                · exact hs' o ho'

theorem drainSellsAux_perm (p : ℚ) :
    ∀ (fuel : ℕ) (sells : List Order),
      sells.Perm ((drainSellsAux p fuel sells).1 ++ (drainSellsAux p fuel sells).2) := by
  intro fuel
  induction fuel with
  | zero => intro sells; exact List.Perm.refl _
  | succ n ih =>
    intro sells
    simp only [drainSellsAux]
    cases hs : popBest prioritizeMin sells with
    | none => exact List.Perm.refl _
    | some ps =>
      cases ps with
      | mk bestSell rest =>
        by_cases hc : bestSell.price ≤ p
        · simp only [hc, if_true]
          exact (popBest_perm _ _ _ _ hs).trans ((ih rest).cons bestSell)
        · simp only [hc, if_false]
          exact List.Perm.refl _

theorem mem_foldl_push (l init : List Order) (x : Order) :
    x ∈ l.foldl (fun acc o => push o acc) init ↔ x ∈ l ∨ x ∈ init := by
  induction l generalizing init with
  | nil => simp
  | cons a t ih =>
    rw [List.foldl_cons, ih]
    simp only [push, List.mem_cons]
    tauto

theorem proRataLoop_pos :
    ∀ (fuel : ℕ) (buys sells : List Order) (hist : List ProcessedOrder)
      (reads : List (ℕ × ℕ)),
      (∀ o ∈ buys, 0 < o.amount) → (∀ o ∈ sells, 0 < o.amount) →
      (∀ o ∈ (proRataLoop fuel buys sells hist reads).1, 0 < o.amount) ∧
      (∀ o ∈ (proRataLoop fuel buys sells hist reads).2.1, 0 < o.amount) := by
  intro fuel
  induction fuel with
  | zero => intro buys sells hist reads hb hs; exact ⟨hb, hs⟩
  | succ n ih =>
    intro buys sells hist reads hb hs
    simp only [proRataLoop]
    cases hpb : popBest prioritizeMax buys with
    | none => exact ⟨hb, hs⟩
    | some pb =>
      cases pb with
      | mk bestBuy buys' =>
        cases hps : popBest prioritizeMin sells with
        | none => exact ⟨hb, hs⟩
        | some ps =>
          cases ps with
          | mk bestSell sells0 =>
            by_cases hp : bestBuy.price < bestSell.price
            · simp only [hp, if_true]
              exact ⟨hb, hs⟩
            · simp only [hp, if_false]
              have hb' : ∀ o ∈ buys', 0 < o.amount :=
                fun o ho => hb o (popBest_rest_subset _ _ _ _ hpb o ho)
              have hdr : sells.Perm ((drainSells bestBuy.price sells).1 ++
                  (drainSells bestBuy.price sells).2) :=
                drainSellsAux_perm bestBuy.price sells.length sells
              rcases hres : levelsLoopAux bestBuy.getID
                  ((drainSells bestBuy.price sells).1.length + 1)
                  (drainSells bestBuy.price sells).1 0 bestBuy.amount hist reads with
                ⟨m', b', hist', reads'⟩
              apply ih
              · intro o ho
                by_cases hb0 : 0 < b'
                · simp only [hb0, if_true, push] at ho
                  rcases List.mem_cons.mp ho with rfl | ho'
                  · simpa using hb0
                  · exact hb' o ho'
                · simp only [hb0, if_false] at ho
                  exact hb' o ho
              · intro o ho
                rcases (mem_foldl_push _ _ _).mp ho with hom | hor
                · exact (by simpa using (List.mem_filter.mp hom).2 : 0 < o.amount)
                · refine hs o ?_
                  have := hdr.mem_iff (a := o)
                  rw [this]
                  exact List.mem_append.mpr (Or.inr hor)

/-- C8: matching never leaves a filled-out order resident: starting from a
book whose resident orders all have positive remaining quantity, after
either matching pass every order in both queues still has positive
remaining quantity (no order with zero remaining quantity appears), and
`addOrder` with a positive-quantity order preserves the same invariant. -/
theorem C8_no_stale_orders (ob : Orderbook)
    (hb : ∀ o ∈ ob.buyOrders, 0 < o.amount)
    (hs : ∀ o ∈ ob.sellOrders, 0 < o.amount) :
    (∀ o ∈ (matchOrdersFIFO ob).buyOrders, 0 < o.amount) ∧
    (∀ o ∈ (matchOrdersFIFO ob).sellOrders, 0 < o.amount) ∧
    (∀ o ∈ (matchOrdersProRata ob).buyOrders, 0 < o.amount) ∧
    (∀ o ∈ (matchOrdersProRata ob).sellOrders, 0 < o.amount) ∧
    (∀ newOrder : Order, 0 < newOrder.amount →
      (∀ o ∈ (addOrder ob newOrder).buyOrders, 0 < o.amount) ∧
      (∀ o ∈ (addOrder ob newOrder).sellOrders, 0 < o.amount)) := by
  have hf := fifoLoop_pos (ob.buyOrders.length + ob.sellOrders.length)
    ob.buyOrders ob.sellOrders ob.orderHistory hb hs
  have hpr := proRataLoop_pos (proRataFuel ob) ob.buyOrders ob.sellOrders
    ob.orderHistory [] hb hs
  rw [matchOrdersFIFO_eq, matchOrdersProRata_eq]
  refine ⟨hf.1, hf.2, hpr.1, hpr.2, ?_⟩
  intro newOrder hpos
  unfold addOrder
  by_cases hside : newOrder.isBuy
  · simp only [hside, if_true]
    refine ⟨?_, hs⟩
    intro o ho
    rcases List.mem_cons.mp ho with rfl | ho'
    · exact hpos
    · exact hb o ho'
  · simp only [hside, if_false]
    refine ⟨hb, ?_⟩
    intro o ho
    rcases List.mem_cons.mp ho with rfl | ho'
    · exact hpos
    · exact hs o ho'

/-- C8, witness: on the book of spec Scenario B (buy 8 vs sell 3), the buy
order left resident after the FIFO pass has the positive quantity 5. -/
theorem C8_witness :
    0 < ({ mkOrder tkr 1 false true 10 900 8 with amount := (5 : ℤ) } : Order).amount :=
  (C8_no_stale_orders
      ⟨[mkOrder tkr 1 false true 10 900 8], [mkOrder tkr 2 false false 10 800 3], []⟩
      (by decide) (by decide)).1 _ (by decide)

theorem qtyWithID_cons (id : ℤ) (o : Order) (l : List Order) :
    qtyWithID id (o :: l) = (if o.getID = id then o.amount else 0) + qtyWithID id l := by
  unfold qtyWithID
  by_cases h : o.getID = id <;> simp [h, List.filter_cons]

theorem qtyWithID_nil (id : ℤ) : qtyWithID id [] = 0 := rfl

theorem qtyWithID_append (id : ℤ) (l1 l2 : List Order) :
    qtyWithID id (l1 ++ l2) = qtyWithID id l1 + qtyWithID id l2 := by
  unfold qtyWithID
  rw [List.filter_append, List.map_append, List.sum_append]

theorem qtyWithID_perm (id : ℤ) {l l' : List Order} (h : l.Perm l') :
    qtyWithID id l = qtyWithID id l' := by
  unfold qtyWithID
  exact ((h.filter _).map _).sum_eq

theorem buyFills_append (id : ℤ) (h1 h2 : List ProcessedOrder) :
    buyFills id (h1 ++ h2) = buyFills id h1 + buyFills id h2 := by
  unfold buyFills
  rw [List.filter_append, List.map_append, List.sum_append]

theorem sellFills_append (id : ℤ) (h1 h2 : List ProcessedOrder) :
    sellFills id (h1 ++ h2) = sellFills id h1 + sellFills id h2 := by
  unfold sellFills
  rw [List.filter_append, List.map_append, List.sum_append]

theorem buyFills_single (id : ℤ) (r : ProcessedOrder) :
    buyFills id [r] = if r.buyID = id then r.fillAmount else 0 := by
  unfold buyFills
  by_cases h : r.buyID = id <;> simp [h]

theorem sellFills_single (id : ℤ) (r : ProcessedOrder) :
    sellFills id [r] = if r.sellID = id then r.fillAmount else 0 := by
  unfold sellFills
  by_cases h : r.sellID = id <;> simp [h]

theorem qtyWithID_popBest (comp : Order → Order → Bool) (id : ℤ)
    {l r : List Order} {b : Order} (h : popBest comp l = some (b, r)) :
    qtyWithID id l = (if b.getID = id then b.amount else 0) + qtyWithID id r := by
  rw [qtyWithID_perm id (popBest_perm comp l b r h), qtyWithID_cons]

theorem getID_setAmount (o : Order) (x : ℤ) :
    ({ o with amount := x } : Order).getID = o.getID := rfl

theorem fifoLoop_conserve :
    ∀ (fuel : ℕ) (buys sells : List Order) (hist : List ProcessedOrder) (id : ℤ),
      (qtyWithID id (fifoLoop fuel buys sells hist).1 +
          buyFills id (fifoLoop fuel buys sells hist).2.2 =
        qtyWithID id buys + buyFills id hist) ∧
      (qtyWithID id (fifoLoop fuel buys sells hist).2.1 +
          sellFills id (fifoLoop fuel buys sells hist).2.2 =
        qtyWithID id sells + sellFills id hist) := by
  intro fuel
  induction fuel with
  | zero => intro buys sells hist id; exact ⟨rfl, rfl⟩
  | succ n ih =>
    intro buys sells hist id
    simp only [fifoLoop]
    cases hpb : popBest prioritizeMax buys with
    | none => exact ⟨rfl, rfl⟩
    | some pb =>
      cases pb with
      | mk bestBuy buys' =>
        cases hps : popBest prioritizeMin sells with
        | none => exact ⟨rfl, rfl⟩
        | some ps =>
          cases ps with
          | mk bestSell sells' =>
            have hqb := qtyWithID_popBest prioritizeMax id hpb
            have hqs := qtyWithID_popBest prioritizeMin id hps
            by_cases hp : bestSell.price ≤ bestBuy.price
            · simp only [hp, if_true]
              by_cases h1 : bestSell.amount < bestBuy.amount
              · simp only [h1, if_true]
                obtain ⟨hA, hB⟩ := ih
                  (push { bestBuy with amount := bestBuy.amount - bestSell.amount } buys')
                  sells' (hist ++ [⟨bestBuy.getID, bestSell.getID, bestSell.amount⟩]) id
                refine ⟨?_, ?_⟩
                · rw [hA]
                  simp only [push, qtyWithID_cons, getID_setAmount, buyFills_append,
                    buyFills_single]
                  rw [hqb]
                  by_cases hc : bestBuy.getID = id <;> simp [hc] <;> omega
                · rw [hB]
                  simp only [sellFills_append, sellFills_single]
                  rw [hqs]
                  by_cases hd : bestSell.getID = id <;> simp [hd] <;> omega
              · simp only [h1, if_false]
                by_cases h2 : bestBuy.amount < bestSell.amount
                · simp only [h2, if_true]
                  obtain ⟨hA, hB⟩ := ih buys'
                    (push { bestSell with amount := bestSell.amount - bestBuy.amount } sells')
                    (hist ++ [⟨bestBuy.getID, bestSell.getID, bestBuy.amount⟩]) id
                  refine ⟨?_, ?_⟩
                  · rw [hA]
                    simp only [buyFills_append, buyFills_single]
                    rw [hqb]
                    by_cases hc : bestBuy.getID = id <;> simp [hc] <;> omega
                  · rw [hB]
                    simp only [push, qtyWithID_cons, getID_setAmount, sellFills_append,
                      sellFills_single]
                    rw [hqs]
                    by_cases hd : bestSell.getID = id <;> simp [hd] <;> omega
                · simp only [h2, if_false]
                  obtain ⟨hA, hB⟩ := ih buys' sells'
                    (hist ++ [⟨bestBuy.getID, bestSell.getID, bestBuy.amount⟩]) id
                  refine ⟨?_, ?_⟩
                  · rw [hA]
                    simp only [buyFills_append, buyFills_single]
                    rw [hqb]
                    by_cases hc : bestBuy.getID = id <;> simp [hc] <;> omega
                  · rw [hB]
                    simp only [sellFills_append, sellFills_single]
                    rw [hqs]
                    by_cases hd : bestSell.getID = id <;> simp [hd] <;> omega
            · simp only [hp, if_false]
              refine ⟨?_, ?_⟩
              · simp only [push, qtyWithID_cons]
                omega
              · simp only [push, qtyWithID_cons]
                omega

theorem qtyWithID_set (id : ℤ) :
    ∀ (m : List Order) (i : ℕ) (o o' : Order), m[i]? = some o →
      qtyWithID id (m.set i o') =
        qtyWithID id m - (if o.getID = id then o.amount else 0)
          + (if o'.getID = id then o'.amount else 0) := by
  intro m
  induction m with
  | nil => intro i o o' h; simp at h
  | cons a t ih =>
    intro i o o' h
    cases i with
    | zero =>
      simp only [List.getElem?_cons_zero, Option.some.injEq] at h
      subst h
      simp only [List.set_cons_zero]
      rw [qtyWithID_cons, qtyWithID_cons]
      ring
    | succ j =>
      simp only [List.getElem?_cons_succ] at h
      simp only [List.set_cons_succ]
      rw [qtyWithID_cons, qtyWithID_cons, ih j o o' h]
      ring

theorem qtyWithID_filter_pos (id : ℤ) :
    ∀ (l : List Order), (∀ o ∈ l, 0 ≤ o.amount) →
      qtyWithID id (l.filter (fun o => 0 < o.amount)) = qtyWithID id l := by
  intro l
  induction l with
  | nil => intro h; rfl
  | cons a t ih =>
    intro h
    have ha : 0 ≤ a.amount := h a (List.mem_cons_self a t)
    have ht : ∀ o ∈ t, 0 ≤ o.amount := fun o ho => h o (List.mem_cons_of_mem _ ho)
    by_cases hpos : 0 < a.amount
    · rw [List.filter_cons_of_pos (by simpa using hpos), qtyWithID_cons, qtyWithID_cons,
        ih ht]
    · rw [List.filter_cons_of_neg (by simpa using hpos), qtyWithID_cons, ih ht]
      have hz : a.amount = 0 := by omega
      simp [hz]

theorem qtyWithID_foldl_push (id : ℤ) :
    ∀ (l init : List Order),
      qtyWithID id (l.foldl (fun acc o => push o acc) init) =
        qtyWithID id l + qtyWithID id init := by
  intro l
  induction l with
  | nil => intro init; simp [qtyWithID_nil]
  | cons a t ih =>
    intro init
    rw [List.foldl_cons, ih, qtyWithID_cons]
    show qtyWithID id t + qtyWithID id (a :: init) = _
    rw [qtyWithID_cons]
    ring

theorem buyFills_snoc (id : ℤ) (h : List ProcessedOrder) (a b c : ℤ) :
    buyFills id (h ++ [⟨a, b, c⟩]) = buyFills id h + (if a = id then c else 0) := by
  rw [buyFills_append, buyFills_single]

theorem sellFills_snoc (id : ℤ) (h : List ProcessedOrder) (a b c : ℤ) :
    sellFills id (h ++ [⟨a, b, c⟩]) = sellFills id h + (if b = id then c else 0) := by
  rw [sellFills_append, sellFills_single]

theorem qtyWithID_set_amount (id : ℤ) (m : List Order) (i : ℕ) (o : Order) (x : ℤ)
    (hgo : m[i]? = some o) :
    qtyWithID id (m.set i { o with amount := x }) =
      qtyWithID id m - (if o.getID = id then o.amount else 0)
        + (if o.getID = id then x else 0) := by
  rw [qtyWithID_set id m i o _ hgo]
  simp [getID_setAmount]

theorem fillLevelAux_conserve (buyID : ℤ) (B0 L : ℤ) :
    ∀ (k : ℕ) (m : List Order) (i : ℕ) (b : ℤ) (hist : List ProcessedOrder),
      (∀ id, qtyWithID id (fillLevelAux buyID B0 L k m i b hist).1 +
          sellFills id (fillLevelAux buyID B0 L k m i b hist).2.2.2 =
        qtyWithID id m + sellFills id hist) ∧
      ((fillLevelAux buyID B0 L k m i b hist).2.1 +
          buyFills buyID (fillLevelAux buyID B0 L k m i b hist).2.2.2 =
        b + buyFills buyID hist) ∧
      (∀ id, id ≠ buyID →
        buyFills id (fillLevelAux buyID B0 L k m i b hist).2.2.2 = buyFills id hist) ∧
      ((∀ o ∈ m, 0 ≤ o.amount) →
        ∀ o ∈ (fillLevelAux buyID B0 L k m i b hist).1, 0 ≤ o.amount) ∧
      (0 ≤ b → 0 ≤ (fillLevelAux buyID B0 L k m i b hist).2.1) := by
  intro k
  induction k with
  | zero =>
    intro m i b hist
    exact ⟨fun id => rfl, rfl, fun id _ => rfl, fun h => h, fun h => h⟩
  | succ n ih =>
    intro m i b hist
    simp only [fillLevelAux]
    by_cases hlen : m.length ≤ i
    · simp only [hlen, if_true]
      refine ⟨fun id => ?_, ?_, fun id _ => ?_, fun h => h, fun h => h⟩ <;> trivial
    · simp only [hlen, if_false]
      cases hgo : m[i]? with
      | none =>
        exfalso
        rw [List.getElem?_eq_none_iff] at hgo
        omega
      | some o =>
        dsimp only
        generalize hE : fpCeilToInt (fpMul (fpOfInt B0)
          (fpDiv (fpOfInt o.amount) (fpOfInt L))) = E
        have hafb : min (min b o.amount) E ≤ b :=
          le_trans (min_le_left _ _) (min_le_left _ _)
        have hafs : min (min b o.amount) E ≤ o.amount :=
          le_trans (min_le_left _ _) (min_le_right _ _)
        have hmemset : ∀ x ∈ m.set i { o with amount := o.amount - min (min b o.amount) E },
            (∀ o' ∈ m, 0 ≤ o'.amount) → 0 ≤ x.amount := by
          intro x hx hm
          rcases List.mem_or_eq_of_mem_set hx with hxm | hxe
          · exact hm x hxm
          · subst hxe
            simpa using by omega
        by_cases hz : b - min (min b o.amount) E = 0
        · simp only [hz, if_true]
          refine ⟨?_, ?_, ?_, ?_, ?_⟩
          · intro id
            rw [qtyWithID_set_amount id m i o _ hgo, sellFills_snoc]
            by_cases hc : o.getID = id
            · simp only [if_pos hc]
              omega
            · simp only [if_neg hc]
              omega
          · rw [buyFills_snoc, if_pos rfl]
            omega
          · intro id hne
            rw [buyFills_snoc, if_neg (fun h => hne h.symm), add_zero]
          · intro hm x hx
            exact hmemset x hx hm
          · intro _
            omega
        · simp only [hz, if_false]
          obtain ⟨I1, I2, I3, I4, I5⟩ := ih
            (m.set i { o with amount := o.amount - min (min b o.amount) E })
            (i + 1) (b - min (min b o.amount) E) (hist ++ [⟨buyID, o.getID, min (min b o.amount) E⟩])
          refine ⟨?_, ?_, ?_, ?_, ?_⟩
          · intro id
            rw [I1 id, qtyWithID_set_amount id m i o _ hgo, sellFills_snoc]
            by_cases hc : o.getID = id
            · simp only [if_pos hc]
              omega
            · simp only [if_neg hc]
              omega
          · rw [I2, buyFills_snoc, if_pos rfl]
            omega
          · intro id hne
            rw [I3 id hne, buyFills_snoc, if_neg (fun h => hne h.symm), add_zero]
          · intro hm x hx
            exact I4 (fun y hy => hmemset y hy hm) x hx
          · intro _
            exact I5 (by omega)

theorem levelsLoopAux_conserve (buyID : ℤ) :
    ∀ (fuel : ℕ) (m : List Order) (c : ℕ) (b : ℤ) (hist : List ProcessedOrder)
      (reads : List (ℕ × ℕ)),
      (∀ id, qtyWithID id (levelsLoopAux buyID fuel m c b hist reads).1 +
          sellFills id (levelsLoopAux buyID fuel m c b hist reads).2.2.1 =
        qtyWithID id m + sellFills id hist) ∧
      ((levelsLoopAux buyID fuel m c b hist reads).2.1 +
          buyFills buyID (levelsLoopAux buyID fuel m c b hist reads).2.2.1 =
        b + buyFills buyID hist) ∧
      (∀ id, id ≠ buyID →
        buyFills id (levelsLoopAux buyID fuel m c b hist reads).2.2.1 = buyFills id hist) ∧
      ((∀ o ∈ m, 0 ≤ o.amount) →
        ∀ o ∈ (levelsLoopAux buyID fuel m c b hist reads).1, 0 ≤ o.amount) ∧
      (0 ≤ b → 0 ≤ (levelsLoopAux buyID fuel m c b hist reads).2.1) := by
  intro fuel
  induction fuel with
  | zero =>
    intro m c b hist reads
    exact ⟨fun id => rfl, rfl, fun id _ => rfl, fun h => h, fun h => h⟩
  | succ n ih =>
    intro m c b hist reads
    simp only [levelsLoopAux]
    by_cases hcm : c < m.length
    · simp only [hcm, if_true]
      rcases hfl : fillLevelAux buyID b
          (sumAmounts ((m.drop c).take ((levelScan m c).1 - c)))
          ((levelScan m c).1 - c) m c b hist with ⟨m1, b1, still, h1⟩
      have hlem := fillLevelAux_conserve buyID b
        (sumAmounts ((m.drop c).take ((levelScan m c).1 - c)))
        ((levelScan m c).1 - c) m c b hist
      rw [hfl] at hlem
      obtain ⟨F1, F2, F3, F4, F5⟩ := hlem
      dsimp only at F1 F2 F3 F4 F5 ⊢
      cases still with
      | true =>
        rw [if_pos rfl]
        obtain ⟨G1, G2, G3, G4, G5⟩ := ih m1 (levelScan m c).1 b1 h1
          (reads ++ (levelScan m c).2.map (fun j => (j, m.length)))
        exact ⟨fun id => (G1 id).trans (F1 id), G2.trans F2,
          fun id hne => (G3 id hne).trans (F3 id hne),
          fun hm => G4 (F4 hm), fun hb0 => G5 (F5 hb0)⟩
      | false =>
        rw [if_neg Bool.false_ne_true]
        exact ⟨F1, F2, F3, F4, F5⟩
    · simp only [hcm, if_false]
      exact ⟨fun id => by trivial, by trivial, fun id _ => by trivial,
        fun h => h, fun h => h⟩

theorem proRataLoop_conserve :
    ∀ (fuel : ℕ) (buys sells : List Order) (hist : List ProcessedOrder)
      (reads : List (ℕ × ℕ)),
      (∀ o ∈ buys, 0 ≤ o.amount) → (∀ o ∈ sells, 0 ≤ o.amount) →
      ∀ id,
      (qtyWithID id (proRataLoop fuel buys sells hist reads).1 +
          buyFills id (proRataLoop fuel buys sells hist reads).2.2.1 =
        qtyWithID id buys + buyFills id hist) ∧
      (qtyWithID id (proRataLoop fuel buys sells hist reads).2.1 +
          sellFills id (proRataLoop fuel buys sells hist reads).2.2.1 =
        qtyWithID id sells + sellFills id hist) := by
  intro fuel
  induction fuel with
  | zero => intro buys sells hist reads hb hs id; exact ⟨rfl, rfl⟩
  | succ n ih =>
    intro buys sells hist reads hb hs id
    simp only [proRataLoop]
    cases hpb : popBest prioritizeMax buys with
    | none => exact ⟨rfl, rfl⟩
    | some pb =>
      cases pb with
      | mk bestBuy buys' =>
        cases hps : popBest prioritizeMin sells with
        | none => exact ⟨rfl, rfl⟩
        | some ps =>
          cases ps with
          | mk bestSell sells0 =>
            by_cases hp : bestBuy.price < bestSell.price
            · simp only [hp, if_true]
              exact ⟨by trivial, by trivial⟩
            · simp only [hp, if_false]
              have hb' : ∀ o ∈ buys', 0 ≤ o.amount :=
                fun o ho => hb o (popBest_rest_subset _ _ _ _ hpb o ho)
              have hbb0 : 0 ≤ bestBuy.amount := hb _ (popBest_mem _ _ _ _ hpb)
              have hdr : sells.Perm ((drainSells bestBuy.price sells).1 ++
                  (drainSells bestBuy.price sells).2) :=
                drainSellsAux_perm bestBuy.price sells.length sells
              have hM : ∀ o ∈ (drainSells bestBuy.price sells).1, 0 ≤ o.amount :=
                fun o ho => hs o (hdr.mem_iff.mpr (List.mem_append.mpr (Or.inl ho)))
              have hR : ∀ o ∈ (drainSells bestBuy.price sells).2, 0 ≤ o.amount :=
                fun o ho => hs o (hdr.mem_iff.mpr (List.mem_append.mpr (Or.inr ho)))
              rcases hll : levelsLoopAux bestBuy.getID
                  ((drainSells bestBuy.price sells).1.length + 1)
                  (drainSells bestBuy.price sells).1 0 bestBuy.amount hist reads with
                ⟨m1, b1, h1, r1⟩
              have hlem := levelsLoopAux_conserve bestBuy.getID
                ((drainSells bestBuy.price sells).1.length + 1)
                (drainSells bestBuy.price sells).1 0 bestBuy.amount hist reads
              rw [hll] at hlem
              obtain ⟨L1, L2, L3, L4, L5⟩ := hlem
              dsimp only at L1 L2 L3 L4 L5 ⊢
              have hm1 : ∀ o ∈ m1, 0 ≤ o.amount := L4 hM
              have hb1 : 0 ≤ b1 := L5 hbb0
              have hsells2 : ∀ idx : ℤ, qtyWithID idx
                  ((m1.filter (fun o => 0 < o.amount)).foldl
                    (fun acc o => push o acc) (drainSells bestBuy.price sells).2) =
                  qtyWithID idx m1 + qtyWithID idx (drainSells bestBuy.price sells).2 := by
                intro idx
                rw [qtyWithID_foldl_push, qtyWithID_filter_pos idx m1 hm1]
              have hbuys2 : ∀ idx : ℤ, qtyWithID idx
                  (if 0 < b1 then push { bestBuy with amount := b1 } buys' else buys') =
                  (if bestBuy.getID = idx then b1 else 0) + qtyWithID idx buys' := by
                intro idx
                by_cases hb1p : 0 < b1
                · rw [if_pos hb1p]
                  show qtyWithID idx ({ bestBuy with amount := b1 } :: buys') = _
                  rw [qtyWithID_cons, getID_setAmount]
                · rw [if_neg hb1p]
                  have : b1 = 0 := by omega
                  subst this
                  simp
              have hpos2 : ∀ o ∈ (if 0 < b1 then push { bestBuy with amount := b1 } buys'
                  else buys'), 0 ≤ o.amount := by
                intro o ho
                by_cases hb1p : 0 < b1
                · rw [if_pos hb1p] at ho
                  rcases List.mem_cons.mp ho with rfl | ho'
                  · simpa using by omega
                  · exact hb' o ho'
                · rw [if_neg hb1p] at ho
                  exact hb' o ho
              have hpos3 : ∀ o ∈ (m1.filter (fun o => 0 < o.amount)).foldl
                  (fun acc o => push o acc) (drainSells bestBuy.price sells).2,
                  0 ≤ o.amount := by
                intro o ho
                rcases (mem_foldl_push _ _ _).mp ho with hom | hor
                · exact le_of_lt (by simpa using (List.mem_filter.mp hom).2)
                · exact hR o hor
              obtain ⟨H1, H2⟩ := ih
                (if 0 < b1 then push { bestBuy with amount := b1 } buys' else buys')
                ((m1.filter (fun o => 0 < o.amount)).foldl
                  (fun acc o => push o acc) (drainSells bestBuy.price sells).2)
                h1 r1 hpos2 hpos3 id
              have hqb := qtyWithID_popBest prioritizeMax id hpb
              have hqsells : qtyWithID id sells =
                  qtyWithID id (drainSells bestBuy.price sells).1 +
                  qtyWithID id (drainSells bestBuy.price sells).2 := by
                rw [qtyWithID_perm id hdr, qtyWithID_append]
              refine ⟨?_, ?_⟩
              · rw [H1, hbuys2 id, hqb]
                by_cases hc : bestBuy.getID = id
                · rw [if_pos hc, if_pos hc]
                  have := L2
                  rw [hc] at this
                  omega
                · rw [if_neg hc, if_neg hc]
                  have := L3 id (fun h => hc h.symm)
                  omega
              · rw [H2, hsells2 id, hqsells]
                have := L1 id
                omega

/-- C1: quantity conservation.  For every reported order ID, after either
matching pass the remaining quantity resident under that ID plus the fill
quantity recorded against that ID during the pass equals the quantity
resident under that ID before the pass — separately on the buy side
(fills counted by `buyID`) and the sell side (fills counted by `sellID`);
no quantity is created or destroyed. -/
theorem C1_quantity_conservation (ob : Orderbook)
    (hb : ∀ o ∈ ob.buyOrders, 0 ≤ o.amount)
    (hs : ∀ o ∈ ob.sellOrders, 0 ≤ o.amount) (id : ℤ) :
    (qtyWithID id (matchOrdersFIFO ob).buyOrders +
        buyFills id (matchOrdersFIFO ob).orderHistory =
      qtyWithID id ob.buyOrders + buyFills id ob.orderHistory) ∧
    (qtyWithID id (matchOrdersFIFO ob).sellOrders +
        sellFills id (matchOrdersFIFO ob).orderHistory =
      qtyWithID id ob.sellOrders + sellFills id ob.orderHistory) ∧
    (qtyWithID id (matchOrdersProRata ob).buyOrders +
        buyFills id (matchOrdersProRata ob).orderHistory =
      qtyWithID id ob.buyOrders + buyFills id ob.orderHistory) ∧
    (qtyWithID id (matchOrdersProRata ob).sellOrders +
        sellFills id (matchOrdersProRata ob).orderHistory =
      qtyWithID id ob.sellOrders + sellFills id ob.orderHistory) := by
  have hf := fifoLoop_conserve (ob.buyOrders.length + ob.sellOrders.length)
    ob.buyOrders ob.sellOrders ob.orderHistory id
  have hp := proRataLoop_conserve (proRataFuel ob) ob.buyOrders ob.sellOrders
    ob.orderHistory [] hb hs id
  rw [matchOrdersFIFO_eq, matchOrdersProRata_eq]
  exact ⟨hf.1, hf.2, hp.1, hp.2⟩

/-- C1, witness: the book of spec Scenario D (buy of 10 against sells of 30
and 10 at one price), with the conservation equations instantiated at the
buy order's reported ID 1. -/
theorem C1_witness :
    (qtyWithID 1 (matchOrdersFIFO ⟨[mkOrder tkr 1 false true 10 900 10],
        [mkOrder tkr 2 false false 10 800 30, mkOrder tkr 3 false false 10 801 10],
        []⟩).buyOrders +
      buyFills 1 (matchOrdersFIFO ⟨[mkOrder tkr 1 false true 10 900 10],
        [mkOrder tkr 2 false false 10 800 30, mkOrder tkr 3 false false 10 801 10],
        []⟩).orderHistory =
      qtyWithID 1 [mkOrder tkr 1 false true 10 900 10] + buyFills 1 []) ∧
    (qtyWithID 1 (matchOrdersFIFO ⟨[mkOrder tkr 1 false true 10 900 10],
        [mkOrder tkr 2 false false 10 800 30, mkOrder tkr 3 false false 10 801 10],
        []⟩).sellOrders +
      sellFills 1 (matchOrdersFIFO ⟨[mkOrder tkr 1 false true 10 900 10],
        [mkOrder tkr 2 false false 10 800 30, mkOrder tkr 3 false false 10 801 10],
        []⟩).orderHistory =
      qtyWithID 1 [mkOrder tkr 2 false false 10 800 30, mkOrder tkr 3 false false 10 801 10] +
        sellFills 1 []) ∧
    (qtyWithID 1 (matchOrdersProRata ⟨[mkOrder tkr 1 false true 10 900 10],
        [mkOrder tkr 2 false false 10 800 30, mkOrder tkr 3 false false 10 801 10],
        []⟩).buyOrders +
      buyFills 1 (matchOrdersProRata ⟨[mkOrder tkr 1 false true 10 900 10],
        [mkOrder tkr 2 false false 10 800 30, mkOrder tkr 3 false false 10 801 10],
        []⟩).orderHistory =
      qtyWithID 1 [mkOrder tkr 1 false true 10 900 10] + buyFills 1 []) ∧
    (qtyWithID 1 (matchOrdersProRata ⟨[mkOrder tkr 1 false true 10 900 10],
        [mkOrder tkr 2 false false 10 800 30, mkOrder tkr 3 false false 10 801 10],
        []⟩).sellOrders +
      sellFills 1 (matchOrdersProRata ⟨[mkOrder tkr 1 false true 10 900 10],
        [mkOrder tkr 2 false false 10 800 30, mkOrder tkr 3 false false 10 801 10],
        []⟩).orderHistory =
      qtyWithID 1 [mkOrder tkr 2 false false 10 800 30, mkOrder tkr 3 false false 10 801 10] +
        sellFills 1 []) :=
  C1_quantity_conservation
    ⟨[mkOrder tkr 1 false true 10 900 10],
      [mkOrder tkr 2 false false 10 800 30, mkOrder tkr 3 false false 10 801 10], []⟩
    (by decide) (by decide) 1

/-- C4 (amended): within a price level the recorded fill for the sell order
at index `i` equals `min(B, sellQty, entitlement)` where the entitlement is
computed in single-precision float exactly as the code does —
`(int)ceil((float)B0 * ((float)sellQty / (float)L))` — rather than in exact
rational arithmetic; both sides are reduced by the fill, one record is
appended, and when `B` reaches 0 the fill loop stops with
`buyOrdersStillRemaining = false`, upon which the level loop returns
immediately, processing no further level. -/
theorem C4_prorata_fill_formula (buyID B0 L : ℤ) (k : ℕ) (m : List Order) (i : ℕ)
    (b : ℤ) (hist : List ProcessedOrder) (o : Order)
    (hgo : m[i]? = some o) (hlen : i < m.length) :
    (fillLevelAux buyID B0 L (k + 1) m i b hist =
      (let af := min (min b o.amount)
        (fpCeilToInt (fpMul (fpOfInt B0) (fpDiv (fpOfInt o.amount) (fpOfInt L))));
       if b - af = 0 then
         (m.set i { o with amount := o.amount - af }, b - af, false,
           hist ++ [⟨buyID, o.getID, af⟩])
       else
         fillLevelAux buyID B0 L k (m.set i { o with amount := o.amount - af })
           (i + 1) (b - af) (hist ++ [⟨buyID, o.getID, af⟩]))) ∧
    (∀ (fuel : ℕ) (m2 : List Order) (c : ℕ) (b2 : ℤ) (hist2 : List ProcessedOrder)
      (reads2 : List (ℕ × ℕ)) (mr : List Order) (br : ℤ) (hr : List ProcessedOrder),
      c < m2.length →
      fillLevelAux buyID b2 (sumAmounts ((m2.drop c).take ((levelScan m2 c).1 - c)))
        ((levelScan m2 c).1 - c) m2 c b2 hist2 = (mr, br, false, hr) →
      levelsLoopAux buyID (fuel + 1) m2 c b2 hist2 reads2 =
        (mr, br, hr, reads2 ++ (levelScan m2 c).2.map (fun j => (j, m2.length)))) := by
  constructor
  · simp only [fillLevelAux]
    rw [if_neg (by omega : ¬ m.length ≤ i), hgo]
  · intro fuel m2 c b2 hist2 reads2 mr br hr hc hfl
    simp only [levelsLoopAux]
    rw [if_pos hc, hfl]
    rfl

set_option maxRecDepth 1000000 in
unseal Rat.mul Rat.inv Rat.add Rat.sub in
/-- C4, counterexample: on the book with one buy of 4079 and two sells of
3992 and 121 at the same price (level total 4113), the pass records a first
fill of 3959, while the claim's exact-arithmetic formula
`min(B, sellQty, ceil(B0*sellQty/L)) = min(4079, 3992, 3960)` gives 3960:
the single-precision computation loses the exact ceiling by one unit. -/
theorem C4_counterexample :
    (matchOrdersProRata ⟨[mkOrder tkr 1 false true 10 900 4079],
        [mkOrder tkr 2 false false 10 800 3992, mkOrder tkr 3 false false 10 801 121],
        []⟩).orderHistory =
      [⟨1, 2, 3959⟩, ⟨1, 3, 120⟩] ∧
    min (4079 : ℤ) (min 3992 (specEntitlement 4079 3992 4113)) = 3960 ∧
    (3959 : ℤ) ≠ 3960 := by
  refine ⟨by decide, by decide, by decide⟩

set_option maxRecDepth 100000 in
unseal Rat.mul Rat.inv Rat.add Rat.sub in
/-- C4, witness: one sell of 5 at the level (L = 5) against a buy of 8 —
the entitlement is ceil(8 · (5/5)) = 8, the fill min(8, 5, 8) = 5, the
sell is left at 0, the buy at 3, and the loop continues (flag stays true). -/
theorem C4_witness :
    fillLevelAux 9 8 5 1 [mkOrder tkr 2 false false 10 800 5] 0 8 [] =
      ([{ mkOrder tkr 2 false false 10 800 5 with amount := 0 }], 3, true,
        [⟨9, 2, 5⟩]) := by
  rw [(C4_prorata_fill_formula 9 8 5 0 [mkOrder tkr 2 false false 10 800 5] 0 8 []
    (mkOrder tkr 2 false false 10 800 5) (by decide) (by decide)).1]
  decide

end OrderMatching
